import Mathlib

/-!
Verification of `forwardmodel/spec1d/eigenroots.hpp` (AkiEstimate).

The header defines three root solvers:
  * `eigensolveroots`          — roots of a generic polynomial via the
    companion-matrix generalized eigenvalue problem (GEP);
  * `eigensolveroots_lobatto`  — interior roots of the derivative of the
    Legendre polynomial (Gauss-Legendre-Lobatto nodes);
  * `eigensolveroots_laguerre` — roots of the derivative of the Laguerre
    polynomial (Gauss-Laguerre nodes).

The collaborators (`Spec1DMatrix`, `GEP`, `Polynomial`) are not part of the
translated sources; they are modelled from the spec at their interfaces:
a dense matrix container (resize, zero-fill, identity, element access), a
GEP solver returning per-eigenvalue rows `(real-numerator, imaginary-
numerator, denominator)` and a success flag, and a polynomial exposing
`order()` and indexed coefficients.  Numeric values are idealized as an
abstract linear ordered field (instantiated with `ℚ` in concrete
witnesses); `::sqrt` is an abstract function parameter.  A separate,
precision-typed model of the pencil construction is given at the end for
the mixed-precision claim.
-/

/-- Modelled from the spec: the dense matrix container `Spec1DMatrix`
(resize, zero-fill, identity initialization, indexed element access),
represented by its dimensions and an entry function. -/
structure Mat (R : Type) where
  rows : ℕ
  cols : ℕ
  entry : ℕ → ℕ → R

/-- `A.resize(N, N); A.setZero();` — an `N×N` matrix of zeros. -/
def Mat.resizeZero (R : Type) [Zero R] (N : ℕ) : Mat R :=
  ⟨N, N, fun _ _ => 0⟩

/-- `I.setIdentity(N);` — the `N×N` identity matrix. -/
def Mat.setIdentity (R : Type) [Zero R] [One R] (N : ℕ) : Mat R :=
  ⟨N, N, fun i j => if i = j then 1 else 0⟩

/-- `A(i, j) = v;` — element assignment. -/
def Mat.set {R : Type} (A : Mat R) (i j : ℕ) (v : R) : Mat R :=
  ⟨A.rows, A.cols, fun r c => if r = i ∧ c = j then v else A.entry r c⟩

/-- Modelled from the spec: the `Polynomial` collaborator, exposing its
order (degree) `N` and indexed coefficient access (index `0` = constant
term, index `N` = leading term). -/
structure CPoly (R : Type) where
  order : ℕ
  coeff : ℕ → R

/-- Modelled from the spec: one row of the eigenvalue table `lambda`
returned by the GEP solver: `lambda(i,0)` = real numerator, `lambda(i,1)`
= imaginary numerator, `lambda(i,2)` = denominator. -/
structure EigRow (R : Type) where
  re : R
  im : R
  den : R

/-- Modelled from the spec: the external GEP solver `GEP(A, B, ...)`.
Given the pencil `(A, B)` it either fails (`none`) or succeeds with an
eigenvalue table, one `EigRow` per row index. -/
def GepOracle (R : Type) : Type :=
  Mat R → Mat R → Option (ℕ → EigRow R)

/-- `std::vector<real>::resize(n)`: truncate to `n` elements, or grow by
appending value-initialized (zero) elements. -/
def resizeL {R : Type} [Zero R] (l : List R) (n : ℕ) : List R :=
  l.take n ++ List.replicate (n - l.length) 0

/-- `std::sort(v.begin(), v.begin() + n)`: sort the first `n` entries
ascending, leaving the rest in place. -/
def sortFront {R : Type} [LinearOrder R] (l : List R) (n : ℕ) : List R :=
  List.insertionSort (· ≤ ·) (l.take n) ++ l.drop n

/-- Result of `eigensolveroots`: return value plus the three out-parameters
`eig_real`, `eig_imag`, `nreal`. -/
structure GenOut (R : Type) where
  ok : Bool
  eig_real : List R
  eig_imag : List R
  nreal : ℕ
  deriving DecidableEq

/-- Result of `eigensolveroots_lobatto` / `eigensolveroots_laguerre`:
return value plus the out-parameters `eig_real`, `nreal`. -/
structure NodeOut (R : Type) where
  ok : Bool
  eig_real : List R
  nreal : ℕ
  deriving DecidableEq

/-- The companion-matrix construction loop of `eigensolveroots`
(`eigenroots.hpp` lines 57-68): starting from the zeroed `N×N` matrix,
for `i` in `[0,N)` set `A(0, i) = -poly[N - i - 1]/denom` with
`denom = poly[N]`, and if `i < N - 1` also set `A(i + 1, i) = 1`. -/
def companion {R : Type} [Field R] (p : CPoly R) : Mat R :=
  (List.range p.order).foldl
    (fun A i =>
      let A1 := A.set 0 i (-(p.coeff (p.order - i - 1)) / p.coeff p.order)
      if i < p.order - 1 then A1.set (i + 1) i 1 else A1)
    (Mat.resizeZero R p.order)

/-- The classification loop body of `eigensolveroots` (lines 81-94), acting
on the state `(eig_real, eig_imag, nreal, nimag)`: a row with zero
imaginary numerator is a real root appended at index `nreal`; otherwise the
complex root is written at index `N - 1 - nimag`, filling the tail inward. -/
def classifyStep {R : Type} [Field R] [DecidableEq R] (N : ℕ) (lam : ℕ → EigRow R)
    (st : List R × List R × ℕ × ℕ) (i : ℕ) : List R × List R × ℕ × ℕ :=
  let (er, ei, nreal, nimag) := st
  if (lam i).im = 0 then
    (er.set nreal ((lam i).re / (lam i).den),
     ei.set nreal 0,
     nreal + 1, nimag)
  else
    (er.set (N - 1 - nimag) ((lam i).re / (lam i).den),
     ei.set (N - 1 - nimag) ((lam i).im / (lam i).den),
     nreal, nimag + 1)

/-- The full classification loop of `eigensolveroots` (lines 75-94),
starting from `nreal = 0`, `nimag = 0`. -/
def classify {R : Type} [Field R] [DecidableEq R] (N : ℕ) (lam : ℕ → EigRow R)
    (er ei : List R) : List R × List R × ℕ × ℕ :=
  (List.range N).foldl (classifyStep N lam) (er, ei, 0, 0)

/-- `eigensolveroots` (lines 44-99): build the companion matrix and the
identity, call the GEP solver; on failure return `false` (out-parameters
untouched); on success resize `eig_real`/`eig_imag` to `N`, classify the
`N` eigenvalue rows, sort the real prefix and return `true`. -/
def eigensolveroots {R : Type} [LinearOrderedField R] (gep : GepOracle R) (p : CPoly R)
    (eig_real eig_imag : List R) (nreal : ℕ) : GenOut R :=
  let N := p.order
  let A := companion p
  let I := Mat.setIdentity R N
  match gep A I with
  | none => ⟨false, eig_real, eig_imag, nreal⟩
  | some lam =>
    let er0 := resizeL eig_real N
    let ei0 := resizeL eig_imag N
    let st := classify N lam er0 ei0
    ⟨true, sortFront st.1 st.2.2.1, st.2.1, st.2.2.1⟩

/-- The Jacobi-matrix construction loop of the Lobatto solver's default
branch (lines 134-155): `N = order - 1`; for `i` in `[0, N-1)`, if `i = 0`
set `A(0,1) = A(1,0) = 1/sqrt(5)`, otherwise with `ii = 1 + i` set
`A(i, i+1) = 2*sqrt(ii*(ii+1)*(ii+1)*(ii+2)/((2*ii+2)*(2*ii+2)-1))/(2*ii+2)`
and `A(i+1, i) = A(i, i+1)` (read back from the matrix just written). -/
def lobattoMatrix {R : Type} [Field R] (sqrt : R → R) (order : ℕ) : Mat R :=
  let N := order - 1
  (List.range (N - 1)).foldl
    (fun A i =>
      if i = 0 then
        let A1 := A.set i (i + 1) (1 / sqrt 5)
        A1.set (i + 1) i (1 / sqrt 5)
      else
        let ii : R := 1 + (i : R)
        let A1 := A.set i (i + 1)
          (2 * sqrt (ii * (ii + 1) * (ii + 1) * (ii + 2) /
            ((2 * ii + 2) * (2 * ii + 2) - 1)) / (2 * ii + 2))
        A1.set (i + 1) i (A1.entry i (i + 1)))
    (Mat.resizeZero R N)

/-- The real-root extraction loop shared by the Lobatto (lines 162-173) and
Laguerre (lines 234-247) default branches: for each of the `N` rows, if the
imaginary numerator is zero write `lambda(i,0)/lambda(i,2)` at index
`nreal` and increment `nreal`; otherwise skip the row. -/
def packReal {R : Type} [Field R] [DecidableEq R] (N : ℕ) (lam : ℕ → EigRow R)
    (er : List R) : List R × ℕ :=
  (List.range N).foldl
    (fun st i =>
      if (lam i).im = 0 then (st.1.set st.2 ((lam i).re / (lam i).den), st.2 + 1)
      else st)
    (er, 0)

/-- The `default:` branch of `eigensolveroots_lobatto` (lines 132-177):
build the Jacobi pencil with `N = order - 1`, call the GEP solver; on
failure return `false` (out-parameters untouched); on success resize
`eig_real` to `N`, pack the rows with zero imaginary numerator, sort the
prefix and return `true`. -/
def lobattoDefault {R : Type} [LinearOrderedField R] (gep : GepOracle R) (sqrt : R → R)
    (order : ℕ) (eig_real : List R) (nreal : ℕ) : NodeOut R :=
  let N := order - 1
  let A := lobattoMatrix sqrt order
  match gep A (Mat.setIdentity R N) with
  | none => ⟨false, eig_real, nreal⟩
  | some lam =>
    let st := packReal N lam (resizeL eig_real N)
    ⟨true, sortFront st.1 st.2, st.2⟩

/-- `eigensolveroots_lobatto` (lines 109-181): closed-form shortcuts for
orders `0`, `1`, `2` (push_back onto the caller's vector), otherwise the
default Jacobi-pencil branch; every non-default path returns `true`. -/
def eigensolveroots_lobatto {R : Type} [LinearOrderedField R] (gep : GepOracle R)
    (sqrt : R → R) (order : ℕ) (eig_real : List R) (nreal : ℕ) : NodeOut R :=
  match order with
  | 0 => ⟨true, eig_real ++ [0], 1⟩
  | 1 => ⟨true, (eig_real ++ [-1]) ++ [1], 2⟩
  | 2 => ⟨true, ((eig_real ++ [-1]) ++ [0]) ++ [1], 3⟩
  | n + 3 => lobattoDefault gep sqrt (n + 3) eig_real nreal

/-- The Jacobi-matrix construction loop of the Laguerre solver's default
branch (lines 211-227): `N = order`; for `i` in `[0, N)` set
`A(i, i) = 2*(i+1)`, and if `i < N - 1` set
`A(i, i+1) = sqrt((1+i)*(2+i))` and `A(i+1, i) = A(i, i+1)`. -/
def laguerreMatrix {R : Type} [Field R] (sqrt : R → R) (order : ℕ) : Mat R :=
  let N := order
  (List.range N).foldl
    (fun A i =>
      let A1 := A.set i i (2 * ((i : R) + 1))
      if i < N - 1 then
        let A2 := A1.set i (i + 1) (sqrt ((1 + (i : R)) * (2 + (i : R))))
        A2.set (i + 1) i (A2.entry i (i + 1))
      else A1)
    (Mat.resizeZero R N)

/-- The `default:` branch of `eigensolveroots_laguerre` (lines 205-251):
build the Jacobi pencil with `N = order`, call the GEP solver; on failure
return `false`; on success resize `eig_real` to `N`, pack the rows with
zero imaginary numerator, sort the prefix and return `true`. -/
def laguerreDefault {R : Type} [LinearOrderedField R] (gep : GepOracle R) (sqrt : R → R)
    (order : ℕ) (eig_real : List R) (nreal : ℕ) : NodeOut R :=
  let N := order
  let A := laguerreMatrix sqrt order
  match gep A (Mat.setIdentity R N) with
  | none => ⟨false, eig_real, nreal⟩
  | some lam =>
    let st := packReal N lam (resizeL eig_real N)
    ⟨true, sortFront st.1 st.2, st.2⟩

/-- `eigensolveroots_laguerre` (lines 191-255): shortcuts for order `0`
(no roots) and order `1` (single root `2.0`), otherwise the default
Jacobi-pencil branch; every non-default path returns `true`. -/
def eigensolveroots_laguerre {R : Type} [LinearOrderedField R] (gep : GepOracle R)
    (sqrt : R → R) (order : ℕ) (eig_real : List R) (nreal : ℕ) : NodeOut R :=
  match order with
  | 0 => ⟨true, eig_real, 0⟩
  | 1 => ⟨true, eig_real ++ [2], 1⟩
  | n + 2 => laguerreDefault gep sqrt (n + 2) eig_real nreal

/-! ### Helper lemmas about the container model -/

theorem Mat.rows_set {R : Type} (A : Mat R) (i j : ℕ) (v : R) :
    (A.set i j v).rows = A.rows := rfl

theorem Mat.cols_set {R : Type} (A : Mat R) (i j : ℕ) (v : R) :
    (A.set i j v).cols = A.cols := rfl

theorem foldl_mat_dims {R : Type} (f : Mat R → ℕ → Mat R)
    (hf : ∀ A i, (f A i).rows = A.rows ∧ (f A i).cols = A.cols) :
    ∀ (l : List ℕ) (A : Mat R),
      (l.foldl f A).rows = A.rows ∧ (l.foldl f A).cols = A.cols := by
  intro l
  induction l with
  | nil => intro A; exact ⟨rfl, rfl⟩
  | cons j t ih =>
    intro A
    have h1 := hf A j
    have h2 := ih (f A j)
    simp only [List.foldl_cons]
    omega

theorem length_resizeL {R : Type} [Zero R] (l : List R) (n : ℕ) :
    (resizeL l n).length = n := by
  simp [resizeL]
  omega

theorem resizeL_nil {R : Type} [Zero R] (n : ℕ) :
    resizeL ([] : List R) n = List.replicate n 0 := by
  simp [resizeL]

theorem take_sortFront {R : Type} [LinearOrder R] (l : List R) (n : ℕ) :
    (sortFront l n).take n = List.insertionSort (· ≤ ·) (l.take n) := by
  unfold sortFront
  rcases le_or_lt n l.length with h | h
  · rw [List.take_append_of_le_length (by simp [List.length_insertionSort]; try omega),
      List.take_of_length_le (by simp [List.length_insertionSort]; try omega)]
  · rw [List.take_of_length_le (le_of_lt h), List.drop_eq_nil_of_le (le_of_lt h),
      List.append_nil, List.take_of_length_le (by simp [List.length_insertionSort]; try omega)]

theorem sorted_take_sortFront {R : Type} [LinearOrder R] (l : List R) (n : ℕ) :
    List.Sorted (· ≤ ·) ((sortFront l n).take n) := by
  rw [take_sortFront]
  exact List.sorted_insertionSort _ _

theorem length_sortFront {R : Type} [LinearOrder R] (l : List R) (n : ℕ) :
    (sortFront l n).length = l.length := by
  simp [sortFront, List.length_insertionSort]
  omega

theorem drop_sortFront {R : Type} [LinearOrder R] (l : List R) (n : ℕ) :
    (sortFront l n).drop n = l.drop n := by
  rcases le_or_lt n l.length with h | h
  · unfold sortFront
    rw [List.drop_append_of_le_length (by simp [List.length_insertionSort]; try omega),
      List.drop_eq_nil_of_le (by simp [List.length_insertionSort]; try omega), List.nil_append]
  · rw [List.drop_eq_nil_of_le (by rw [length_sortFront]; omega),
      List.drop_eq_nil_of_le (le_of_lt h)]

/-! ### Closed form of the companion-matrix construction loop -/

theorem companion_step_entry {R : Type} [Field R] (p : CPoly R) (F : Mat R) (k r c : ℕ) :
    ((fun (A : Mat R) (i : ℕ) =>
        let A1 := A.set 0 i (-(p.coeff (p.order - i - 1)) / p.coeff p.order)
        if i < p.order - 1 then A1.set (i + 1) i 1 else A1) F k).entry r c =
    (if r = k + 1 ∧ c = k ∧ k < p.order - 1 then (1 : R)
     else if r = 0 ∧ c = k then -(p.coeff (p.order - k - 1)) / p.coeff p.order
     else F.entry r c) := by
  by_cases hk : k < p.order - 1
  · simp only [hk, if_true, Mat.set]
    split_ifs <;> first | rfl | (exfalso; omega) | simp_all
  · simp only [hk, if_false, Mat.set]
    split_ifs <;> first | rfl | (exfalso; omega) | simp_all

theorem companion_loop_entry {R : Type} [Field R] (p : CPoly R) (m r c : ℕ) :
    ((List.range m).foldl
      (fun A i =>
        let A1 := A.set 0 i (-(p.coeff (p.order - i - 1)) / p.coeff p.order)
        if i < p.order - 1 then A1.set (i + 1) i 1 else A1)
      (Mat.resizeZero R p.order)).entry r c =
    (if r = 0 ∧ c < m then -(p.coeff (p.order - c - 1)) / p.coeff p.order
     else if r = c + 1 ∧ c < m ∧ c < p.order - 1 then (1 : R)
     else 0) := by
  induction m with
  | zero => simp [Mat.resizeZero]
  | succ k ih =>
    rw [List.range_succ, List.foldl_append, List.foldl_cons, List.foldl_nil,
      companion_step_entry, ih]
    split_ifs <;> first | rfl | (exfalso; omega) | simp_all

theorem companion_entry {R : Type} [Field R] (p : CPoly R) (r c : ℕ) :
    (companion p).entry r c =
    (if r = 0 ∧ c < p.order then -(p.coeff (p.order - c - 1)) / p.coeff p.order
     else if r = c + 1 ∧ c < p.order - 1 then (1 : R)
     else 0) := by
  have h := companion_loop_entry p p.order r c
  unfold companion
  rw [h]
  split_ifs <;> first | rfl | omega

theorem companion_dims {R : Type} [Field R] (p : CPoly R) :
    (companion p).rows = p.order ∧ (companion p).cols = p.order := by
  unfold companion
  exact foldl_mat_dims _ (by
    intro A i
    by_cases h : i < p.order - 1 <;> simp [h, Mat.set]) _ _

/-! ### Spec-side descriptions of the classification loops -/

/-- Indices of eigenvalue rows whose imaginary numerator is exactly zero,
in processing order. -/
def realIdx {R : Type} [Zero R] [DecidableEq R] (lam : ℕ → EigRow R) (l : List ℕ) : List ℕ :=
  l.filter (fun i => decide ((lam i).im = 0))

/-- Indices of eigenvalue rows whose imaginary numerator is nonzero, in
processing order. -/
def compIdx {R : Type} [Zero R] [DecidableEq R] (lam : ℕ → EigRow R) (l : List ℕ) : List ℕ :=
  l.filter (fun i => decide (¬(lam i).im = 0))

/-- The real part `lambda(i,0)/lambda(i,2)` of an eigenvalue row. -/
def quotRe {R : Type} [Div R] (row : EigRow R) : R := row.re / row.den

/-- The imaginary part `lambda(i,1)/lambda(i,2)` of an eigenvalue row. -/
def quotIm {R : Type} [Div R] (row : EigRow R) : R := row.im / row.den

theorem realIdx_add_compIdx_length {R : Type} [Zero R] [DecidableEq R] (lam : ℕ → EigRow R)
    (l : List ℕ) : (realIdx lam l).length + (compIdx lam l).length = l.length := by
  induction l with
  | nil => simp [realIdx, compIdx]
  | cons j t ih =>
    by_cases h : (lam j).im = 0 <;> simp [realIdx, compIdx, h] at ih ⊢ <;> omega

theorem set_front_middle {R : Type} (P M S : List R) (v : R) (hM : M ≠ []) :
    (P ++ M ++ S).set P.length v = (P ++ [v]) ++ M.tail ++ S := by
  cases M with
  | nil => exact absurd rfl hM
  | cons m0 M =>
    rw [List.append_assoc, List.set_append_right _ _ (le_refl _)]
    simp

theorem set_back_middle {R : Type} (P M S : List R) (v : R) (hM : M ≠ []) :
    (P ++ M ++ S).set (P.length + M.length - 1) v = P ++ M.dropLast ++ (v :: S) := by
  have h1 : M.length ≥ 1 := by
    cases M with
    | nil => exact absurd rfl hM
    | cons m0 M => simp
  rw [List.append_assoc, List.set_append_right _ _ (by omega)]
  have h2 : P.length + M.length - 1 - P.length = M.length - 1 := by omega
  rw [h2, List.set_append_left _ _ (by omega),
    List.set_eq_take_append_cons_drop, if_pos (by omega)]
  have h3 : M.drop (M.length - 1 + 1) = [] := List.drop_eq_nil_of_le (by omega)
  rw [h3, List.dropLast_eq_take]
  simp

/-- Closed form of the classification loop of `eigensolveroots`: processing
the index list `l` on arrays split as processed front `Pr`/`Pi`, unprocessed
middle `Mr`/`Mi` and processed tail `Sr`/`Si` writes the real-root quotients
left to right at the front and the complex-root quotients right to left at
the tail. -/
theorem classify_foldl {R : Type} [Field R] [DecidableEq R] (N : ℕ) (lam : ℕ → EigRow R) :
    ∀ (l : List ℕ) (Pr Mr Sr Pi Mi Si : List R),
      Pr.length + Mr.length + Sr.length = N →
      Pi.length = Pr.length → Mi.length = Mr.length → Si.length = Sr.length →
      l.length = Mr.length →
      l.foldl (classifyStep N lam) (Pr ++ Mr ++ Sr, Pi ++ Mi ++ Si, Pr.length, Sr.length) =
        (Pr ++ ((realIdx lam l).map (fun i => quotRe (lam i)) ++
            (((compIdx lam l).map (fun i => quotRe (lam i))).reverse ++ Sr)),
         Pi ++ ((realIdx lam l).map (fun _ => (0 : R)) ++
            (((compIdx lam l).map (fun i => quotIm (lam i))).reverse ++ Si)),
         Pr.length + (realIdx lam l).length,
         Sr.length + (compIdx lam l).length) := by
  intro l
  induction l with
  | nil =>
    intro Pr Mr Sr Pi Mi Si hN hPi hMi hSi hlen
    simp only [List.length_nil] at hlen
    have hMr : Mr = [] := List.length_eq_zero.mp (by omega)
    have hMi2 : Mi = [] := List.length_eq_zero.mp (by omega)
    subst hMr; subst hMi2
    simp [realIdx, compIdx]
  | cons j t ih =>
    intro Pr Mr Sr Pi Mi Si hN hPi hMi hSi hlen
    simp only [List.length_cons] at hlen
    have hMr : Mr ≠ [] := by
      intro h
      rw [h] at hlen
      simp at hlen
    have hMi0 : Mi ≠ [] := by
      intro h
      rw [h] at hMi
      simp at hMi
      omega
    have hMlen : 1 ≤ Mr.length := by
      cases Mr with
      | nil => exact absurd rfl hMr
      | cons a b => simp
    rw [List.foldl_cons]
    by_cases hj : (lam j).im = 0
    · -- real row: written at the front, `nreal` incremented
      have hstep : classifyStep N lam (Pr ++ Mr ++ Sr, Pi ++ Mi ++ Si, Pr.length, Sr.length) j =
          ((Pr ++ [quotRe (lam j)]) ++ Mr.tail ++ Sr,
           (Pi ++ [(0 : R)]) ++ Mi.tail ++ Si,
           (Pr ++ [quotRe (lam j)]).length, Sr.length) := by
        simp only [classifyStep, hj, if_true, quotRe]
        rw [set_front_middle _ _ _ _ hMr]
        rw [show Pr.length = Pi.length from hPi.symm, set_front_middle _ _ _ _ hMi0]
        simp [hPi]
      rw [hstep, ih (Pr ++ [quotRe (lam j)]) Mr.tail Sr (Pi ++ [(0 : R)]) Mi.tail Si
        (by simp [List.length_tail]; omega)
        (by simp [hPi]) (by simp [List.length_tail]; omega) hSi
        (by simp [List.length_tail] at hlen ⊢; omega)]
      have hr : realIdx lam (j :: t) = j :: realIdx lam t := by
        simp [realIdx, hj]
      have hc : compIdx lam (j :: t) = compIdx lam t := by
        simp [compIdx, hj]
      rw [hr, hc]
      simp [List.append_assoc]
      omega
    · -- complex row: written at the tail, `nimag` incremented
      have hidx : N - 1 - Sr.length = Pr.length + Mr.length - 1 := by omega
      have hstep : classifyStep N lam (Pr ++ Mr ++ Sr, Pi ++ Mi ++ Si, Pr.length, Sr.length) j =
          (Pr ++ Mr.dropLast ++ (quotRe (lam j) :: Sr),
           Pi ++ Mi.dropLast ++ (quotIm (lam j) :: Si),
           Pr.length, (quotRe (lam j) :: Sr).length) := by
        simp only [classifyStep, hj, if_false, quotRe, quotIm]
        rw [hidx, set_back_middle _ _ _ _ hMr]
        rw [show Pr.length + Mr.length - 1 = Pi.length + Mi.length - 1 by omega,
          set_back_middle _ _ _ _ hMi0]
        simp
        try omega
      rw [hstep, ih Pr Mr.dropLast (quotRe (lam j) :: Sr) Pi Mi.dropLast (quotIm (lam j) :: Si)
        (by simp [List.length_dropLast]; omega) hPi
        (by simp [List.length_dropLast]; omega) (by simp [hSi])
        (by simp [List.length_dropLast] at hlen ⊢; omega)]
      have hr : realIdx lam (j :: t) = realIdx lam t := by
        simp [realIdx, hj]
      have hc : compIdx lam (j :: t) = j :: compIdx lam t := by
        simp [compIdx, hj]
      rw [hr, hc]
      simp [List.append_assoc]
      omega

/-- Closed form of the real-root extraction loop of the Lobatto/Laguerre
default branches: rows with zero imaginary numerator are written left to
right at the front; rows with nonzero imaginary numerator are dropped and
the cells beyond the written ones keep their previous contents. -/
theorem packReal_foldl {R : Type} [Field R] [DecidableEq R] (lam : ℕ → EigRow R) :
    ∀ (l : List ℕ) (P M : List R),
      l.length ≤ M.length →
      l.foldl
        (fun st i =>
          if (lam i).im = 0 then (st.1.set st.2 ((lam i).re / (lam i).den), st.2 + 1)
          else st)
        (P ++ M, P.length) =
      (P ++ ((realIdx lam l).map (fun i => quotRe (lam i)) ++
          M.drop (realIdx lam l).length),
       P.length + (realIdx lam l).length) := by
  intro l
  induction l with
  | nil =>
    intro P M hlen
    simp [realIdx]
  | cons j t ih =>
    intro P M hlen
    simp only [List.length_cons] at hlen
    rw [List.foldl_cons]
    by_cases hj : (lam j).im = 0
    · cases M with
      | nil => simp at hlen
      | cons m0 M =>
        have hstep :
            ((P ++ m0 :: M).set P.length ((lam j).re / (lam j).den), P.length + 1) =
            ((P ++ [quotRe (lam j)]) ++ M, (P ++ [quotRe (lam j)]).length) := by
          rw [List.set_append_right _ _ (le_refl _)]
          simp [quotRe]
        simp only [hj, if_true, hstep]
        rw [ih (P ++ [quotRe (lam j)]) M (by simp at hlen ⊢; omega)]
        have hr : realIdx lam (j :: t) = j :: realIdx lam t := by
          simp [realIdx, hj]
        rw [hr]
        simp [List.append_assoc]
        omega
    · simp only [hj, if_false]
      rw [ih P M (by omega)]
      have hr : realIdx lam (j :: t) = realIdx lam t := by
        simp [realIdx, hj]
      rw [hr]

/-- The off-diagonal value written by the Lobatto Jacobi-matrix loop at
offset `i`: `1/sqrt(5)` for `i = 0`, otherwise the three-term-recurrence
value at `ii = 1 + i`. -/
def lobattoOff {R : Type} [Field R] (sqrt : R → R) (i : ℕ) : R :=
  if i = 0 then 1 / sqrt 5
  else
    2 * sqrt ((1 + (i : R)) * ((1 + (i : R)) + 1) * ((1 + (i : R)) + 1) * ((1 + (i : R)) + 2) /
      ((2 * (1 + (i : R)) + 2) * (2 * (1 + (i : R)) + 2) - 1)) / (2 * (1 + (i : R)) + 2)

theorem lobatto_step_entry {R : Type} [Field R] (sqrt : R → R) (F : Mat R) (k r c : ℕ) :
    ((fun (A : Mat R) (i : ℕ) =>
        if i = 0 then
          let A1 := A.set i (i + 1) (1 / sqrt 5)
          A1.set (i + 1) i (1 / sqrt 5)
        else
          let ii : R := 1 + (i : R)
          let A1 := A.set i (i + 1)
            (2 * sqrt (ii * (ii + 1) * (ii + 1) * (ii + 2) /
              ((2 * ii + 2) * (2 * ii + 2) - 1)) / (2 * ii + 2))
          A1.set (i + 1) i (A1.entry i (i + 1))) F k).entry r c =
    (if (r = k ∧ c = k + 1) ∨ (r = k + 1 ∧ c = k) then lobattoOff sqrt k
     else F.entry r c) := by
  by_cases hk : k = 0
  · subst hk
    simp only [if_true, Mat.set, lobattoOff]
    split_ifs <;> first | rfl | (exfalso; omega) | simp_all
  · simp only [hk, if_false, Mat.set, lobattoOff]
    split_ifs <;> first | rfl | (exfalso; omega) | simp_all

theorem lobatto_loop_entry {R : Type} [Field R] (sqrt : R → R) (N m r c : ℕ) :
    ((List.range m).foldl
      (fun (A : Mat R) (i : ℕ) =>
        if i = 0 then
          let A1 := A.set i (i + 1) (1 / sqrt 5)
          A1.set (i + 1) i (1 / sqrt 5)
        else
          let ii : R := 1 + (i : R)
          let A1 := A.set i (i + 1)
            (2 * sqrt (ii * (ii + 1) * (ii + 1) * (ii + 2) /
              ((2 * ii + 2) * (2 * ii + 2) - 1)) / (2 * ii + 2))
          A1.set (i + 1) i (A1.entry i (i + 1)))
      (Mat.resizeZero R N)).entry r c =
    (if r + 1 = c ∧ r < m then lobattoOff sqrt r
     else if c + 1 = r ∧ c < m then lobattoOff sqrt c
     else 0) := by
  induction m with
  | zero => simp [Mat.resizeZero]
  | succ k ih =>
    rw [List.range_succ, List.foldl_append, List.foldl_cons, List.foldl_nil,
      lobatto_step_entry]
    rcases Decidable.em ((r = k ∧ c = k + 1) ∨ (r = k + 1 ∧ c = k)) with h1 | h1
    · rw [if_pos h1]
      rcases h1 with ⟨rfl, rfl⟩ | ⟨rfl, rfl⟩
      · rw [if_pos ⟨rfl, by omega⟩]
      · rw [if_neg (by omega), if_pos ⟨rfl, by omega⟩]
    · rw [if_neg h1, ih]
      split_ifs <;> first | rfl | (exfalso; omega) | simp_all

theorem lobattoMatrix_entry {R : Type} [Field R] (sqrt : R → R) (order r c : ℕ) :
    (lobattoMatrix sqrt order).entry r c =
    (if r + 1 = c ∧ r < order - 1 - 1 then lobattoOff sqrt r
     else if c + 1 = r ∧ c < order - 1 - 1 then lobattoOff sqrt c
     else 0) := by
  unfold lobattoMatrix
  exact lobatto_loop_entry sqrt (order - 1) (order - 1 - 1) r c

theorem lobattoMatrix_dims {R : Type} [Field R] (sqrt : R → R) (order : ℕ) :
    (lobattoMatrix sqrt order).rows = order - 1 ∧
    (lobattoMatrix sqrt order).cols = order - 1 := by
  unfold lobattoMatrix
  exact foldl_mat_dims _ (by
    intro A i
    by_cases h : i = 0 <;> simp [h, Mat.set]) _ _

/-! ### Evaluation of the solvers on each branch of the GEP call -/

theorem classify_spec {R : Type} [Field R] [DecidableEq R] (N : ℕ) (lam : ℕ → EigRow R)
    (er ei : List R) (her : er.length = N) (hei : ei.length = N) :
    classify N lam er ei =
      ((realIdx lam (List.range N)).map (fun i => quotRe (lam i)) ++
         ((compIdx lam (List.range N)).map (fun i => quotRe (lam i))).reverse,
       (realIdx lam (List.range N)).map (fun _ => (0 : R)) ++
         ((compIdx lam (List.range N)).map (fun i => quotIm (lam i))).reverse,
       (realIdx lam (List.range N)).length,
       (compIdx lam (List.range N)).length) := by
  unfold classify
  have h := classify_foldl N lam (List.range N) [] er [] [] ei []
    (by simp [her]) (by simp) (by simp [hei, her]) (by simp) (by simp [her])
  simpa using h

theorem packReal_spec {R : Type} [Field R] [DecidableEq R] (N : ℕ) (lam : ℕ → EigRow R)
    (er : List R) (her : N ≤ er.length) :
    packReal N lam er =
      ((realIdx lam (List.range N)).map (fun i => quotRe (lam i)) ++
         er.drop (realIdx lam (List.range N)).length,
       (realIdx lam (List.range N)).length) := by
  unfold packReal
  have h := packReal_foldl lam (List.range N) [] er (by simp [her])
  simpa using h

theorem eigensolveroots_none {R : Type} [LinearOrderedField R] (gep : GepOracle R)
    (p : CPoly R) (er ei : List R) (n0 : ℕ)
    (h : gep (companion p) (Mat.setIdentity R p.order) = none) :
    eigensolveroots gep p er ei n0 = ⟨false, er, ei, n0⟩ := by
  simp only [eigensolveroots, h]

theorem eigensolveroots_some {R : Type} [LinearOrderedField R] (gep : GepOracle R)
    (p : CPoly R) (er ei : List R) (n0 : ℕ) (lam : ℕ → EigRow R)
    (h : gep (companion p) (Mat.setIdentity R p.order) = some lam) :
    eigensolveroots gep p er ei n0 =
      ⟨true,
       sortFront ((realIdx lam (List.range p.order)).map (fun i => quotRe (lam i)) ++
           ((compIdx lam (List.range p.order)).map (fun i => quotRe (lam i))).reverse)
         (realIdx lam (List.range p.order)).length,
       (realIdx lam (List.range p.order)).map (fun _ => (0 : R)) ++
         ((compIdx lam (List.range p.order)).map (fun i => quotIm (lam i))).reverse,
       (realIdx lam (List.range p.order)).length⟩ := by
  simp only [eigensolveroots, h]
  rw [classify_spec p.order lam _ _ (length_resizeL er p.order) (length_resizeL ei p.order)]

theorem lobattoDefault_none {R : Type} [LinearOrderedField R] (gep : GepOracle R)
    (sqrt : R → R) (order : ℕ) (er : List R) (n0 : ℕ)
    (h : gep (lobattoMatrix sqrt order) (Mat.setIdentity R (order - 1)) = none) :
    lobattoDefault gep sqrt order er n0 = ⟨false, er, n0⟩ := by
  simp only [lobattoDefault, h]

theorem lobattoDefault_some {R : Type} [LinearOrderedField R] (gep : GepOracle R)
    (sqrt : R → R) (order : ℕ) (er : List R) (n0 : ℕ) (lam : ℕ → EigRow R)
    (h : gep (lobattoMatrix sqrt order) (Mat.setIdentity R (order - 1)) = some lam) :
    lobattoDefault gep sqrt order er n0 =
      ⟨true,
       sortFront ((realIdx lam (List.range (order - 1))).map (fun i => quotRe (lam i)) ++
           (resizeL er (order - 1)).drop (realIdx lam (List.range (order - 1))).length)
         (realIdx lam (List.range (order - 1))).length,
       (realIdx lam (List.range (order - 1))).length⟩ := by
  simp only [lobattoDefault, h]
  rw [packReal_spec (order - 1) lam _ (le_of_eq (length_resizeL er (order - 1)).symm)]

theorem laguerreDefault_none {R : Type} [LinearOrderedField R] (gep : GepOracle R)
    (sqrt : R → R) (order : ℕ) (er : List R) (n0 : ℕ)
    (h : gep (laguerreMatrix sqrt order) (Mat.setIdentity R order) = none) :
    laguerreDefault gep sqrt order er n0 = ⟨false, er, n0⟩ := by
  simp only [laguerreDefault, h]

theorem laguerreDefault_some {R : Type} [LinearOrderedField R] (gep : GepOracle R)
    (sqrt : R → R) (order : ℕ) (er : List R) (n0 : ℕ) (lam : ℕ → EigRow R)
    (h : gep (laguerreMatrix sqrt order) (Mat.setIdentity R order) = some lam) :
    laguerreDefault gep sqrt order er n0 =
      ⟨true,
       sortFront ((realIdx lam (List.range order)).map (fun i => quotRe (lam i)) ++
           (resizeL er order).drop (realIdx lam (List.range order)).length)
         (realIdx lam (List.range order)).length,
       (realIdx lam (List.range order)).length⟩ := by
  simp only [laguerreDefault, h]
  rw [packReal_spec order lam _ (le_of_eq (length_resizeL er order).symm)]

/-! ### Concrete fixtures for witnesses and counterexamples -/

/-- A GEP oracle that always fails (models non-convergence). -/
def gepFail (R : Type) : GepOracle R := fun _ _ => none

/-- A GEP oracle that always succeeds with a fixed eigenvalue table. -/
def gepConst (R : Type) (lam : ℕ → EigRow R) : GepOracle R := fun _ _ => some lam

/-- The polynomial `x^2 - 1` (order 2, coefficients `[-1, 0, 1]`). -/
def pSquare : CPoly ℚ := ⟨2, fun i => if i = 2 then 1 else if i = 0 then -1 else 0⟩

/-- An eigenvalue table with two real rows `1` and `-1` (denominators 1). -/
def lamTwo : ℕ → EigRow ℚ := fun i => if i = 0 then ⟨1, 0, 1⟩ else ⟨-1, 0, 1⟩

/-- An eigenvalue table whose row 0 is real (`5`) and whose other rows are
complex (`±i`). -/
def lamMixed : ℕ → EigRow ℚ := fun i => if i = 0 then ⟨5, 0, 1⟩ else ⟨0, 1, 1⟩

/-! ### Claim C1 -/

/-- C1 counterexample: with a failing GEP oracle and fresh (empty) output
vectors, `eigensolveroots` on the order-2 polynomial `x^2 - 1` returns
`false` with `eig_real`/`eig_imag` NOT resized to `N = 2`: the GEP failure
check precedes the resize, so on failure the arrays are left untouched. -/
theorem C1_counterexample :
    (eigensolveroots (gepFail ℚ) pSquare [] [] 7).ok = false ∧
    pSquare.order = 2 ∧
    (eigensolveroots (gepFail ℚ) pSquare [] [] 7).eig_real.length ≠ pSquare.order ∧
    (eigensolveroots (gepFail ℚ) pSquare [] [] 7).eig_imag.length ≠ pSquare.order := by
  decide

/-- C1 (amended): when the GEP solve step fails, `eigensolveroots` returns
`false` with `eig_real`, `eig_imag` and `nreal` unmodified (the resize to
`N` happens only after the GEP call has been checked); on success the
function returns `true` with both arrays resized to exactly `N`. -/
theorem C1_resize_behavior {R : Type} [LinearOrderedField R] (gep : GepOracle R)
    (p : CPoly R) (er ei : List R) (n0 : ℕ) :
    (gep (companion p) (Mat.setIdentity R p.order) = none →
      eigensolveroots gep p er ei n0 = ⟨false, er, ei, n0⟩) ∧
    (∀ lam, gep (companion p) (Mat.setIdentity R p.order) = some lam →
      (eigensolveroots gep p er ei n0).ok = true ∧
      (eigensolveroots gep p er ei n0).eig_real.length = p.order ∧
      (eigensolveroots gep p er ei n0).eig_imag.length = p.order) := by
  constructor
  · intro h
    exact eigensolveroots_none gep p er ei n0 h
  · intro lam h
    rw [eigensolveroots_some gep p er ei n0 lam h]
    have hcount := realIdx_add_compIdx_length lam (List.range p.order)
    simp only [List.length_range] at hcount
    refine ⟨rfl, ?_, ?_⟩
    · rw [length_sortFront]
      simp only [List.length_append, List.length_map, List.length_reverse]
      omega
    · simp only [List.length_append, List.length_map, List.length_reverse]
      omega

/-- C1 witness: the amended theorem applied at concrete inputs, exercising
both the failure branch and the success branch. -/
theorem C1_witness :
    eigensolveroots (gepFail ℚ) pSquare [] [] 7 = ⟨false, [], [], 7⟩ ∧
    (eigensolveroots (gepConst ℚ lamTwo) pSquare [] [] 0).eig_real.length = pSquare.order :=
  ⟨(C1_resize_behavior (gepFail ℚ) pSquare [] [] 7).1 rfl,
   ((C1_resize_behavior (gepConst ℚ lamTwo) pSquare [] [] 0).2 lamTwo rfl).2.1⟩

/-! ### Claim C5 -/

/-- C5: for every polynomial of order `N` with nonzero leading coefficient,
`eigensolveroots` builds the `N×N` companion matrix with row-0 entries
`A(0,i) = -coeff[N-i-1]/coeff[N]` for `i` in `[0,N)`, sub-diagonal entries
`A(i+1,i) = 1` for `i` in `[0,N-1)`, every other entry zero, and passes it
together with the `N×N` identity to the GEP solver (the result depends on
the oracle only through its value at that pencil). -/
theorem C5_companion_matrix {R : Type} [LinearOrderedField R] (gep gep' : GepOracle R)
    (p : CPoly R) (h0 : p.coeff p.order ≠ 0) :
    (∀ i, i < p.order →
      (companion p).entry 0 i = -(p.coeff (p.order - i - 1)) / p.coeff p.order) ∧
    (∀ i, i < p.order - 1 → (companion p).entry (i + 1) i = 1) ∧
    (∀ r c, r < p.order → c < p.order → r ≠ 0 → r ≠ c + 1 →
      (companion p).entry r c = 0) ∧
    (companion p).rows = p.order ∧ (companion p).cols = p.order ∧
    (∀ er ei n0,
      gep (companion p) (Mat.setIdentity R p.order) =
        gep' (companion p) (Mat.setIdentity R p.order) →
      eigensolveroots gep p er ei n0 = eigensolveroots gep' p er ei n0) := by
  refine ⟨?_, ?_, ?_, (companion_dims p).1, (companion_dims p).2, ?_⟩
  · intro i hi
    rw [companion_entry, if_pos ⟨rfl, hi⟩]
  · intro i hi
    rw [companion_entry, if_neg (by omega), if_pos ⟨rfl, hi⟩]
  · intro r c hr hc hr0 hrc
    rw [companion_entry, if_neg (by omega), if_neg (by omega)]
  · intro er ei n0 h
    simp only [eigensolveroots, h]

/-- C5 witness: the theorem applied to the concrete polynomial `x^2 - 1`. -/
theorem C5_witness :
    (companion pSquare).entry 0 0 =
      -(pSquare.coeff (pSquare.order - 0 - 1)) / pSquare.coeff pSquare.order ∧
    (companion pSquare).entry 1 0 = 1 ∧
    (companion pSquare).rows = pSquare.order := by
  have h := C5_companion_matrix (gepFail ℚ) (gepFail ℚ) pSquare (by decide)
  exact ⟨h.1 0 (by decide), h.2.1 0 (by decide), h.2.2.2.1⟩

/-! ### Claim C7 -/

/-- C7: the Lobatto solver's closed-form shortcuts: order 0 returns success
with `eig_real = {0.0}` and `nreal = 1`; order 1 returns `{-1.0, 1.0}` with
`nreal = 2`; order 2 returns `{-1.0, 0.0, 1.0}` with `nreal = 3` (output
vectors freshly allocated, i.e. initially empty). -/
theorem C7_lobatto_shortcuts {R : Type} [LinearOrderedField R] (gep : GepOracle R)
    (sqrt : R → R) (n0 : ℕ) :
    eigensolveroots_lobatto gep sqrt 0 [] n0 = ⟨true, [0], 1⟩ ∧
    eigensolveroots_lobatto gep sqrt 1 [] n0 = ⟨true, [-1, 1], 2⟩ ∧
    eigensolveroots_lobatto gep sqrt 2 [] n0 = ⟨true, [-1, 0, 1], 3⟩ :=
  ⟨rfl, rfl, rfl⟩

/-! ### Claim C8 -/

/-- C8: the Laguerre solver's closed-form shortcuts: order 0 returns
success with `eig_real` empty and `nreal = 0`; order 1 returns `{2.0}` with
`nreal = 1` (output vector freshly allocated, i.e. initially empty). -/
theorem C8_laguerre_shortcuts {R : Type} [LinearOrderedField R] (gep : GepOracle R)
    (sqrt : R → R) (n0 : ℕ) :
    eigensolveroots_laguerre gep sqrt 0 [] n0 = ⟨true, [], 0⟩ ∧
    eigensolveroots_laguerre gep sqrt 1 [] n0 = ⟨true, [2], 1⟩ :=
  ⟨rfl, rfl⟩

/-! ### Claims C3, C4, C6, C10 -/

theorem lobatto_default_eq {R : Type} [LinearOrderedField R] (gep : GepOracle R)
    (sqrt : R → R) (n : ℕ) (er : List R) (n0 : ℕ) :
    eigensolveroots_lobatto gep sqrt (n + 3) er n0 = lobattoDefault gep sqrt (n + 3) er n0 :=
  rfl

theorem laguerre_default_eq {R : Type} [LinearOrderedField R] (gep : GepOracle R)
    (sqrt : R → R) (n : ℕ) (er : List R) (n0 : ℕ) :
    eigensolveroots_laguerre gep sqrt (n + 2) er n0 = laguerreDefault gep sqrt (n + 2) er n0 :=
  rfl

theorem drop_replicate_eq {R : Type} (a n : ℕ) (x : R) :
    (List.replicate n x).drop a = List.replicate (n - a) x := by
  induction a generalizing n with
  | zero => simp
  | succ k ih =>
    cases n with
    | zero => simp
    | succ n2 => simp [List.replicate_succ, ih]

/-- C3: after every successful call on freshly allocated output vectors,
the prefix `eig_real[0..nreal)` is non-decreasing, for all three solvers. -/
theorem C3_sorted_ascending {R : Type} [LinearOrderedField R] (gep : GepOracle R) (sqrt : R → R)
    (p : CPoly R) (order n0 : ℕ) :
    ((eigensolveroots gep p [] [] n0).ok = true →
      List.Sorted (· ≤ ·) ((eigensolveroots gep p [] [] n0).eig_real.take
        (eigensolveroots gep p [] [] n0).nreal)) ∧
    ((eigensolveroots_lobatto gep sqrt order [] n0).ok = true →
      List.Sorted (· ≤ ·) ((eigensolveroots_lobatto gep sqrt order [] n0).eig_real.take
        (eigensolveroots_lobatto gep sqrt order [] n0).nreal)) ∧
    ((eigensolveroots_laguerre gep sqrt order [] n0).ok = true →
      List.Sorted (· ≤ ·) ((eigensolveroots_laguerre gep sqrt order [] n0).eig_real.take
        (eigensolveroots_laguerre gep sqrt order [] n0).nreal)) := by
  refine ⟨?_, ?_, ?_⟩
  · intro _
    rcases h : gep (companion p) (Mat.setIdentity R p.order) with _ | lam
    · rw [eigensolveroots_none gep p [] [] n0 h]
      simp
    · rw [eigensolveroots_some gep p [] [] n0 lam h]
      exact sorted_take_sortFront _ _
  · rcases order with _ | (_ | (_ | n))
    · intro _
      exact List.sorted_singleton 0
    · intro _
      have h1 : ((-1 : R) ≤ 1) := by norm_num
      simp [eigensolveroots_lobatto, List.sorted_cons, h1]
    · intro _
      have h1 : ((-1 : R) ≤ 0) := by norm_num
      have h2 : ((-1 : R) ≤ 1) := by norm_num
      have h3 : ((0 : R) ≤ 1) := by norm_num
      simp [eigensolveroots_lobatto, List.sorted_cons, h1, h2, h3]
    · intro hok
      rw [lobatto_default_eq] at hok ⊢
      rcases h : gep (lobattoMatrix sqrt (n + 3)) (Mat.setIdentity R (n + 3 - 1)) with _ | lam
      · rw [lobattoDefault_none gep sqrt (n + 3) [] n0 h] at hok
        simp at hok
      · rw [lobattoDefault_some gep sqrt (n + 3) [] n0 lam h]
        exact sorted_take_sortFront _ _
  · rcases order with _ | (_ | n)
    · intro _
      simp [eigensolveroots_laguerre]
    · intro _
      exact List.sorted_singleton 2
    · intro hok
      rw [laguerre_default_eq] at hok ⊢
      rcases h : gep (laguerreMatrix sqrt (n + 2)) (Mat.setIdentity R (n + 2)) with _ | lam
      · rw [laguerreDefault_none gep sqrt (n + 2) [] n0 h] at hok
        simp at hok
      · rw [laguerreDefault_some gep sqrt (n + 2) [] n0 lam h]
        exact sorted_take_sortFront _ _

/-- C3 witness: the theorem applied at a successful generic call (roots
`1, -1` of `x^2 - 1`) and at the Lobatto order-0 shortcut. -/
theorem C3_witness :
    List.Sorted (· ≤ ·) ((eigensolveroots (gepConst ℚ lamTwo) pSquare [] [] 0).eig_real.take
      (eigensolveroots (gepConst ℚ lamTwo) pSquare [] [] 0).nreal) ∧
    List.Sorted (· ≤ ·)
      ((eigensolveroots_lobatto (gepConst ℚ lamTwo) (fun q => q) 0 [] 0).eig_real.take
        (eigensolveroots_lobatto (gepConst ℚ lamTwo) (fun q => q) 0 [] 0).nreal) :=
  ⟨(C3_sorted_ascending (gepConst ℚ lamTwo) (fun q => q) pSquare 0 0).1 rfl,
   (C3_sorted_ascending (gepConst ℚ lamTwo) (fun q => q) pSquare 0 0).2.1 rfl⟩

/-- C4: the classification loop of `eigensolveroots`, run on arrays of
length `N`, writes the real-root quotients (with imaginary slot `0`) left
to right from index `0`, counts them in `nreal`, and writes both quotients
of the complex rows right to left from index `N - 1`, counting them in
`nimag`; zipping the two tails recovers exactly the per-row
(real, imaginary) quotient pairs, i.e. `eig_real` and `eig_imag` stay
coupled at matching indices. -/
theorem C4_classification {R : Type} [LinearOrderedField R] (N : ℕ) (lam : ℕ → EigRow R)
    (er ei : List R) (her : er.length = N) (hei : ei.length = N) :
    classify N lam er ei =
      ((realIdx lam (List.range N)).map (fun i => quotRe (lam i)) ++
         ((compIdx lam (List.range N)).map (fun i => quotRe (lam i))).reverse,
       (realIdx lam (List.range N)).map (fun _ => (0 : R)) ++
         ((compIdx lam (List.range N)).map (fun i => quotIm (lam i))).reverse,
       (realIdx lam (List.range N)).length,
       (compIdx lam (List.range N)).length) ∧
    ((classify N lam er ei).1.drop (realIdx lam (List.range N)).length).zip
        ((classify N lam er ei).2.1.drop (realIdx lam (List.range N)).length) =
      ((compIdx lam (List.range N)).map
        (fun i => (quotRe (lam i), quotIm (lam i)))).reverse := by
  have h := classify_spec N lam er ei her hei
  refine ⟨h, ?_⟩
  rw [h]
  have h1 : ((realIdx lam (List.range N)).map (fun i => quotRe (lam i))).length =
      (realIdx lam (List.range N)).length := List.length_map _ _
  have h2 : ((realIdx lam (List.range N)).map (fun _ => (0 : R))).length =
      (realIdx lam (List.range N)).length := List.length_map _ _
  show (((realIdx lam (List.range N)).map (fun i => quotRe (lam i)) ++
         ((compIdx lam (List.range N)).map (fun i => quotRe (lam i))).reverse).drop
        (realIdx lam (List.range N)).length).zip
      (((realIdx lam (List.range N)).map (fun _ => (0 : R)) ++
         ((compIdx lam (List.range N)).map (fun i => quotIm (lam i))).reverse).drop
        (realIdx lam (List.range N)).length) = _
  rw [← h1, List.drop_left, h1, ← h2, List.drop_left,
    ← List.map_reverse, ← List.map_reverse, List.zip_map', ← List.map_reverse]

/-- C4 witness: the theorem applied to a concrete mixed table (one real
row, two complex rows) on arrays of length 3. -/
theorem C4_witness :
    classify 3 lamMixed [0, 0, 0] [0, 0, 0] =
      ((realIdx lamMixed (List.range 3)).map (fun i => quotRe (lamMixed i)) ++
         ((compIdx lamMixed (List.range 3)).map (fun i => quotRe (lamMixed i))).reverse,
       (realIdx lamMixed (List.range 3)).map (fun _ => (0 : ℚ)) ++
         ((compIdx lamMixed (List.range 3)).map (fun i => quotIm (lamMixed i))).reverse,
       (realIdx lamMixed (List.range 3)).length,
       (compIdx lamMixed (List.range 3)).length) :=
  (C4_classification 3 lamMixed [0, 0, 0] [0, 0, 0] (by decide) (by decide)).1

/-- C6: on a successful generic solve of a polynomial of order `N ≥ 1`,
`nreal` plus the number of complex rows equals `N`, `nreal ≤ N`, and when
the complex rows come in conjugate pairs (even count) `nreal` plus twice
the number of pairs is exactly `N`. -/
theorem C6_count_invariant {R : Type} [LinearOrderedField R] (gep : GepOracle R)
    (p : CPoly R) (er ei : List R) (n0 : ℕ) (lam : ℕ → EigRow R) (hN : 1 ≤ p.order)
    (h : gep (companion p) (Mat.setIdentity R p.order) = some lam) :
    (eigensolveroots gep p er ei n0).nreal +
      (compIdx lam (List.range p.order)).length = p.order ∧
    (eigensolveroots gep p er ei n0).nreal ≤ p.order ∧
    (eigensolveroots gep p er ei n0).nreal = (realIdx lam (List.range p.order)).length ∧
    (Even (compIdx lam (List.range p.order)).length →
      (eigensolveroots gep p er ei n0).nreal +
        2 * ((compIdx lam (List.range p.order)).length / 2) = p.order) := by
  rw [eigensolveroots_some gep p er ei n0 lam h]
  have hcount := realIdx_add_compIdx_length lam (List.range p.order)
  simp only [List.length_range] at hcount
  dsimp only
  refine ⟨by omega, by omega, rfl, ?_⟩
  intro he
  obtain ⟨m, hm⟩ := he
  omega

/-- C6 witness: the theorem applied at `x^2 - 1` with the two-real-root
table (zero complex rows, an even count). -/
theorem C6_witness :
    (eigensolveroots (gepConst ℚ lamTwo) pSquare [] [] 0).nreal +
      (compIdx lamTwo (List.range pSquare.order)).length = pSquare.order ∧
    (eigensolveroots (gepConst ℚ lamTwo) pSquare [] [] 0).nreal +
      2 * ((compIdx lamTwo (List.range pSquare.order)).length / 2) = pSquare.order := by
  have h := C6_count_invariant (gepConst ℚ lamTwo) pSquare [] [] 0 lamTwo (by decide) rfl
  exact ⟨h.1, h.2.2.2 (by decide)⟩

/-- C10: in the general branches of the Lobatto (`order = n + 3`,
`N = order - 1`) and Laguerre (`order = m + 2`, `N = order`) solvers, a
successful call on a fresh output vector reports success with `eig_real`
resized to `N`, but `nreal` counts only the rows with zero imaginary
numerator (so `nreal` can be less than `N`), and the cells
`eig_real[nreal..N)` merely hold the zero-fill left by the resize. -/
theorem C10_dropped_complex_rows {R : Type} [LinearOrderedField R] (gep : GepOracle R)
    (sqrt : R → R) (n m n0 : ℕ) (lam lam' : ℕ → EigRow R) :
    (gep (lobattoMatrix sqrt (n + 3)) (Mat.setIdentity R (n + 3 - 1)) = some lam →
      (eigensolveroots_lobatto gep sqrt (n + 3) [] n0).ok = true ∧
      (eigensolveroots_lobatto gep sqrt (n + 3) [] n0).eig_real.length = n + 2 ∧
      (eigensolveroots_lobatto gep sqrt (n + 3) [] n0).nreal =
        (realIdx lam (List.range (n + 2))).length ∧
      (realIdx lam (List.range (n + 2))).length ≤ n + 2 ∧
      (eigensolveroots_lobatto gep sqrt (n + 3) [] n0).eig_real.drop
          (eigensolveroots_lobatto gep sqrt (n + 3) [] n0).nreal =
        List.replicate ((n + 2) - (realIdx lam (List.range (n + 2))).length) (0 : R)) ∧
    (gep (laguerreMatrix sqrt (m + 2)) (Mat.setIdentity R (m + 2)) = some lam' →
      (eigensolveroots_laguerre gep sqrt (m + 2) [] n0).ok = true ∧
      (eigensolveroots_laguerre gep sqrt (m + 2) [] n0).eig_real.length = m + 2 ∧
      (eigensolveroots_laguerre gep sqrt (m + 2) [] n0).nreal =
        (realIdx lam' (List.range (m + 2))).length ∧
      (realIdx lam' (List.range (m + 2))).length ≤ m + 2 ∧
      (eigensolveroots_laguerre gep sqrt (m + 2) [] n0).eig_real.drop
          (eigensolveroots_laguerre gep sqrt (m + 2) [] n0).nreal =
        List.replicate ((m + 2) - (realIdx lam' (List.range (m + 2))).length) (0 : R)) := by
  constructor
  · intro h
    have hle : (realIdx lam (List.range (n + 2))).length ≤ n + 2 := by
      have := List.length_filter_le (fun i => decide ((lam i).im = 0)) (List.range (n + 2))
      simpa [realIdx] using this
    rw [lobatto_default_eq, lobattoDefault_some gep sqrt (n + 3) [] n0 lam h]
    dsimp only
    simp only [show n + 3 - 1 = n + 2 from rfl]
    rw [resizeL_nil]
    refine ⟨trivial, ?_, trivial, hle, ?_⟩
    · rw [length_sortFront]
      simp only [List.length_append, List.length_map, List.length_drop, List.length_replicate]
      omega
    · rw [drop_sortFront]
      have h1 : ((realIdx lam (List.range (n + 2))).map (fun i => quotRe (lam i))).length =
          (realIdx lam (List.range (n + 2))).length := List.length_map _ _
      rw [← h1, List.drop_left, drop_replicate_eq]
  · intro h
    have hle : (realIdx lam' (List.range (m + 2))).length ≤ m + 2 := by
      have := List.length_filter_le (fun i => decide ((lam' i).im = 0)) (List.range (m + 2))
      simpa [realIdx] using this
    rw [laguerre_default_eq, laguerreDefault_some gep sqrt (m + 2) [] n0 lam' h]
    dsimp only
    rw [resizeL_nil]
    refine ⟨rfl, ?_, rfl, hle, ?_⟩
    · rw [length_sortFront]
      simp only [List.length_append, List.length_map, List.length_drop, List.length_replicate]
      omega
    · rw [drop_sortFront]
      have h1 : ((realIdx lam' (List.range (m + 2))).map (fun i => quotRe (lam' i))).length =
          (realIdx lam' (List.range (m + 2))).length := List.length_map _ _
      rw [← h1, List.drop_left, drop_replicate_eq]

/-- C10 witness: Lobatto order 3 (pencil dimension `N = 2`) with a table
holding one real and one complex row: the call succeeds with `nreal = 1`
strictly below `N = 2`. -/
theorem C10_witness :
    (eigensolveroots_lobatto (gepConst ℚ lamMixed) (fun q => q) 3 [] 0).ok = true ∧
    (eigensolveroots_lobatto (gepConst ℚ lamMixed) (fun q => q) 3 [] 0).eig_real.length = 2 ∧
    (eigensolveroots_lobatto (gepConst ℚ lamMixed) (fun q => q) 3 [] 0).nreal = 1 ∧
    (1 : ℕ) < 2 := by
  have h := (C10_dropped_complex_rows (gepConst ℚ lamMixed) (fun q => q) 0 0 0
    lamMixed lamMixed).1 rfl
  refine ⟨h.1, h.2.1, ?_, by decide⟩
  rw [h.2.2.1]
  decide

/-! ### Claim C9 -/

/-- C9: for every order ≥ 3 the Lobatto solver builds the symmetric
tridiagonal `N×N` Jacobi matrix with `N = order - 1`: zero diagonal,
`A(0,1) = A(1,0) = 1/sqrt(5)`, and for `i` in `[1, N-1)` the off-diagonal
pair `A(i,i+1) = A(i+1,i) = 2*sqrt(i'(i'+1)^2(i'+2)/((2i'+2)^2-1))/(2i'+2)`
with `i' = i + 1`; every other entry is zero, and the pencil `(A, I)` is
what is passed to the GEP solver (the result depends on the oracle only
through its value at that pencil). -/
theorem C9_lobatto_jacobi {R : Type} [LinearOrderedField R] (gep gep' : GepOracle R)
    (sqrt : R → R) (order : ℕ) (h3 : 3 ≤ order) :
    (lobattoMatrix sqrt order).rows = order - 1 ∧
    (lobattoMatrix sqrt order).cols = order - 1 ∧
    (∀ i, i < order - 1 → (lobattoMatrix sqrt order).entry i i = 0) ∧
    ((lobattoMatrix sqrt order).entry 0 1 = 1 / sqrt 5 ∧
      (lobattoMatrix sqrt order).entry 1 0 = 1 / sqrt 5) ∧
    (∀ i, 1 ≤ i → i + 1 < order - 1 →
      (lobattoMatrix sqrt order).entry i (i + 1) =
        2 * sqrt ((((i : R) + 1) * (((i : R) + 1) + 1) ^ 2 * (((i : R) + 1) + 2)) /
          ((2 * ((i : R) + 1) + 2) ^ 2 - 1)) / (2 * ((i : R) + 1) + 2) ∧
      (lobattoMatrix sqrt order).entry (i + 1) i =
        2 * sqrt ((((i : R) + 1) * (((i : R) + 1) + 1) ^ 2 * (((i : R) + 1) + 2)) /
          ((2 * ((i : R) + 1) + 2) ^ 2 - 1)) / (2 * ((i : R) + 1) + 2)) ∧
    (∀ r c, r < order - 1 → c < order - 1 → c ≠ r + 1 → r ≠ c + 1 →
      (lobattoMatrix sqrt order).entry r c = 0) ∧
    (∀ er n0,
      gep (lobattoMatrix sqrt order) (Mat.setIdentity R (order - 1)) =
        gep' (lobattoMatrix sqrt order) (Mat.setIdentity R (order - 1)) →
      eigensolveroots_lobatto gep sqrt order er n0 =
        eigensolveroots_lobatto gep' sqrt order er n0) := by
  have hval : ∀ i : ℕ, 1 ≤ i → lobattoOff sqrt i =
      2 * sqrt ((((i : R) + 1) * (((i : R) + 1) + 1) ^ 2 * (((i : R) + 1) + 2)) /
        ((2 * ((i : R) + 1) + 2) ^ 2 - 1)) / (2 * ((i : R) + 1) + 2) := by
    intro i hi
    rw [lobattoOff, if_neg (by omega)]
    have harg :
        (1 + (i : R)) * ((1 + (i : R)) + 1) * ((1 + (i : R)) + 1) * ((1 + (i : R)) + 2) /
          ((2 * (1 + (i : R)) + 2) * (2 * (1 + (i : R)) + 2) - 1) =
        (((i : R) + 1) * (((i : R) + 1) + 1) ^ 2 * (((i : R) + 1) + 2)) /
          ((2 * ((i : R) + 1) + 2) ^ 2 - 1) := by
      ring
    rw [harg]
    ring_nf
  refine ⟨(lobattoMatrix_dims sqrt order).1, (lobattoMatrix_dims sqrt order).2,
    ?_, ⟨?_, ?_⟩, ?_, ?_, ?_⟩
  · intro i hi
    rw [lobattoMatrix_entry, if_neg (by omega), if_neg (by omega)]
  · rw [lobattoMatrix_entry, if_pos ⟨rfl, by omega⟩]
    simp [lobattoOff]
  · rw [lobattoMatrix_entry, if_neg (by omega), if_pos ⟨rfl, by omega⟩]
    simp [lobattoOff]
  · intro i h1 h2
    constructor
    · rw [lobattoMatrix_entry, if_pos ⟨rfl, by omega⟩]
      exact hval i h1
    · rw [lobattoMatrix_entry, if_neg (by omega), if_pos ⟨rfl, by omega⟩]
      exact hval i h1
  · intro r c hr hc hc1 hr1
    rw [lobattoMatrix_entry, if_neg (by omega), if_neg (by omega)]
  · obtain ⟨n, rfl⟩ : ∃ n, order = n + 3 := ⟨order - 3, by omega⟩
    intro er n0 h
    rw [lobatto_default_eq, lobatto_default_eq]
    simp only [lobattoDefault, h]

/-- C9 witness: the theorem applied at order 4 with the identity in place
of `sqrt` over `ℚ`; the `i = 1` off-diagonal entry evaluates to the
recurrence value `2·(2·3²·4/(6²−1))/6`. -/
theorem C9_witness :
    (3 : ℕ) ≤ 4 ∧
    (lobattoMatrix (fun q : ℚ => q) 4).entry 1 2 =
      2 * (2 * 3 ^ 2 * 4 / (6 ^ 2 - 1)) / 6 := by
  have h := (C9_lobatto_jacobi (gepFail ℚ) (gepFail ℚ) (fun q => q) 4 (by decide)).2.2.2.2.1 1
    (by decide) (by decide)
  refine ⟨by decide, ?_⟩
  rw [h.1]
  norm_num

/-! ### Claim C2: precision-typed model of the pencil construction -/

/-- Modelled from the spec: a caller-supplied C++ numeric type (`real`
template parameter), represented by the rounding it applies when a value
computed in `double` is stored into it; values are idealized as rationals. -/
structure FpType where
  rnd : ℚ → ℚ

/-- The fixed `double`/`long double` computation type of the pencils:
in this idealization it stores values unchanged. -/
def doubleT : FpType := ⟨id⟩

/-- A lower-precision caller type that truncates stored values toward zero
to an integer. -/
def floorT : FpType := ⟨fun q => ((q.num / (q.den : ℤ) : ℤ) : ℚ)⟩

/-- A concrete stand-in for the double square root used by the
counterexample: the constant rational approximation `577/408` of `sqrt 2`
(the only value consulted at order 2). -/
def dsqrt0 : ℚ → ℚ := fun _ => Rat.divInt 577 408

/-- The Lobatto pencil construction with the source's type annotations:
`Spec1DMatrix<double> A` — the matrix is declared and filled in the fixed
`double` type, so the construction does not use the caller's type `T` at
all (the parameter is taken only to reflect the `real` template
parameter of `eigensolveroots_lobatto`). -/
def lobattoPencilOf (dsqrt : ℚ → ℚ) (T : FpType) (order : ℕ) : Mat ℚ :=
  lobattoMatrix dsqrt order

/-- The Laguerre pencil construction with the source's type annotations:
`Spec1DMatrix<real> A` — each entry value (`2.0*(i+1)`,
`sqrt((1.0+i)*(2.0+i))`) is computed in `double` and then stored into the
matrix of the caller's type `real`, i.e. rounded by `T`; the mirrored
entry `A(i+1,i) = A(i,i+1)` copies the already-stored value exactly. -/
def laguerrePencilOf (dsqrt : ℚ → ℚ) (T : FpType) (order : ℕ) : Mat ℚ :=
  (List.range order).foldl
    (fun A i =>
      let A1 := A.set i i (T.rnd (2 * ((i : ℚ) + 1)))
      if i < order - 1 then
        let A2 := A1.set i (i + 1) (T.rnd (dsqrt ((1 + (i : ℚ)) * (2 + (i : ℚ)))))
        A2.set (i + 1) i (A2.entry i (i + 1))
      else A1)
    (Mat.resizeZero ℚ order)

/-- The output-copy loop of the Lobatto default branch with the source's
type annotations: `eig_real[nreal] = lambda(i,0)/lambda(i,2)` — the
quotient is computed in `double` (the type of `lambda`) and narrowed by
the caller's type `T` only when stored into `eig_real`. -/
def packRealOf (T : FpType) (N : ℕ) (lam : ℕ → EigRow ℚ) (er : List ℚ) : List ℚ × ℕ :=
  (List.range N).foldl
    (fun st i =>
      if (lam i).im = 0 then (st.1.set st.2 (T.rnd ((lam i).re / (lam i).den)), st.2 + 1)
      else st)
    (er, 0)

theorem packLoop_foldl {R : Type} [Zero R] [DecidableEq R] (lam : ℕ → EigRow R) (v : ℕ → R) :
    ∀ (l : List ℕ) (P M : List R),
      l.length ≤ M.length →
      l.foldl
        (fun st i => if (lam i).im = 0 then (st.1.set st.2 (v i), st.2 + 1) else st)
        (P ++ M, P.length) =
      (P ++ ((realIdx lam l).map v ++ M.drop (realIdx lam l).length),
       P.length + (realIdx lam l).length) := by
  intro l
  induction l with
  | nil =>
    intro P M hlen
    simp [realIdx]
  | cons j t ih =>
    intro P M hlen
    simp only [List.length_cons] at hlen
    rw [List.foldl_cons]
    by_cases hj : (lam j).im = 0
    · cases M with
      | nil => simp at hlen
      | cons m0 M =>
        have hstep : ((P ++ m0 :: M).set P.length (v j), P.length + 1) =
            ((P ++ [v j]) ++ M, (P ++ [v j]).length) := by
          rw [List.set_append_right _ _ (le_refl _)]
          simp
        simp only [hj, if_true, hstep]
        rw [ih (P ++ [v j]) M (by simp at hlen ⊢; omega)]
        have hr : realIdx lam (j :: t) = j :: realIdx lam t := by
          simp [realIdx, hj]
        rw [hr]
        simp [List.append_assoc]
        omega
    · simp only [hj, if_false]
      rw [ih P M (by omega)]
      have hr : realIdx lam (j :: t) = realIdx lam t := by
        simp [realIdx, hj]
      rw [hr]

theorem packRealOf_spec (T : FpType) (N : ℕ) (lam : ℕ → EigRow ℚ) (er : List ℚ)
    (her : N ≤ er.length) :
    packRealOf T N lam er =
      ((realIdx lam (List.range N)).map (fun i => T.rnd (quotRe (lam i))) ++
         er.drop (realIdx lam (List.range N)).length,
       (realIdx lam (List.range N)).length) := by
  unfold packRealOf
  have h := packLoop_foldl lam (fun i => T.rnd ((lam i).re / (lam i).den))
    (List.range N) [] er (by simp [her])
  simpa [quotRe] using h

/-- C2 counterexample: the Laguerre pencil is built in the caller's type,
not in a fixed type: the caller types `floorT` and `doubleT` receive
different pencils at order 2 (the `A(0,1) = sqrt(1.0*2.0)` entry is stored
rounded vs. unrounded). -/
theorem C2_counterexample :
    (laguerrePencilOf dsqrt0 floorT 2).entry 0 1 ≠
      (laguerrePencilOf dsqrt0 doubleT 2).entry 0 1 := by
  decide

/-- C2 (amended): the Lobatto solver builds its internal pencil in the
fixed high-precision (`double`) type independently of the caller's type,
and narrows eigenvalue quotients to the caller's type only when copying
them into `eig_real`; the Laguerre solver, by contrast, builds its pencil
in the caller's type. -/
theorem C2_mixed_precision (dsqrt : ℚ → ℚ) (order N : ℕ) (lam : ℕ → EigRow ℚ)
    (er : List ℚ) (T T' : FpType) (her : N ≤ er.length) :
    lobattoPencilOf dsqrt T order = lobattoPencilOf dsqrt T' order ∧
    (packRealOf T N lam er).1 =
      (realIdx lam (List.range N)).map (fun i => T.rnd (quotRe (lam i))) ++
        er.drop (realIdx lam (List.range N)).length := by
  refine ⟨rfl, ?_⟩
  rw [packRealOf_spec T N lam er her]

/-- C2 witness: the amended theorem at order 5 with the two concrete
caller types, and the copy loop on a one-row table: the stored root is the
`floorT`-narrowed quotient. -/
theorem C2_witness :
    lobattoPencilOf dsqrt0 floorT 5 = lobattoPencilOf dsqrt0 doubleT 5 ∧
    (packRealOf floorT 1 lamTwo [0]).1 = [floorT.rnd (quotRe (lamTwo 0))] := by
  have h := C2_mixed_precision dsqrt0 5 1 lamTwo [0] floorT doubleT (by decide)
  refine ⟨h.1, ?_⟩
  rw [h.2]
  have hidx : realIdx lamTwo (List.range 1) = [0] := by decide
  rw [hidx]
  simp
